import Mathlib

/-!
Verification of `primitive-quadify-off-curves`.

This file gives a shallow embedding, over `ℝ`, of the repository's core:

* `src/estimate.ts` (provided as `src/unnamed/part_001`): `quadSolve`,
  `cubicRoot`, `cubicSolve`, `cubicSolveT`, `bez2`, `minDistanceToQuad`;
* `src/functional.ts`: `findIntersection`, `getMatrix`, `getResults`,
  `quadifyCurve`, `estimateError`, `autoQuadifyCurve`;
* the elimination-based variant of `quadifyCurve` from the older revision
  (provided as `src/unnamed/part_002`).

JavaScript doubles are modelled as real numbers; a `null` return value or a
thrown exception is modelled as `none`.  Definitions keep the source's names.
-/

open scoped BigOperators

/-- A planar point, `interface Point2d` of `src/functional.ts`. -/
structure Point2d where
  x : ℝ
  y : ℝ

/-- The `Derivable<Point2d>` capability of `src/functional.ts`: a curve is a
pair of an evaluation map and a derivative map on the parameter line. -/
structure Curve where
  eval : ℝ → Point2d
  derivative : ℝ → Point2d

/-- Modelled from the spec: the helper module `src/mix.ts` is imported by both
`src/functional.ts` and `src/estimate.ts` but is absent from the sources.  The
spec's midpoint construction ("midpoint between off-point j and its
neighbors", computed in the code as `mix(a, b, 1/2)`) and the de Casteljau
evaluation `bez3` built on it fix `mix` as linear interpolation. -/
def mix (a b t : ℝ) : ℝ := a + (b - a) * t

/-- `quadSolve` of `src/estimate.ts`: real roots of `a*x^2 + b*x + c = 0`. -/
noncomputable def quadSolve (a b c : ℝ) : List ℝ :=
  if a = 0 then (if b = 0 then [] else [-c / b])
  else
    let D := b * b - 4 * a * c
    if D < 0 then []
    else if D = 0 then [-b / (2 * a)]
    else [(-b - Real.sqrt D) / (2 * a), (-b + Real.sqrt D) / (2 * a)]

/-- `cubicRoot` of `src/estimate.ts`: the real cube root via `Math.pow`. -/
noncomputable def cubicRoot (x : ℝ) : ℝ :=
  if x < 0 then -((-x) ^ ((1 : ℝ) / 3)) else x ^ ((1 : ℝ) / 3)

/-- `cubicSolve` of `src/estimate.ts`: real roots of
`a*x^3 + b*x^2 + c*x + d = 0` by the Nickalls form of Cardano's method. -/
noncomputable def cubicSolve (a b c d : ℝ) : List ℝ :=
  if a = 0 then quadSolve b c d
  else
    let xn := -b / (3 * a)
    let yn := ((a * xn + b) * xn + c) * xn + d
    let deltaSq := (b * b - 3 * a * c) / (9 * (a * a))
    let hSq := 4 * (a * a) * deltaSq ^ 3
    let D3 := yn * yn - hSq
    if D3 > 0 then
      [xn + cubicRoot ((-yn + Real.sqrt D3) / (2 * a)) +
        cubicRoot ((-yn - Real.sqrt D3) / (2 * a))]
    else if D3 = 0 then
      [xn - 2 * cubicRoot (yn / (2 * a)), xn + cubicRoot (yn / (2 * a))]
    else
      let theta := Real.arccos (-yn / Real.sqrt hSq) / 3
      let delta := Real.sqrt deltaSq
      [xn + 2 * delta * Real.cos theta,
        xn + 2 * delta * Real.cos (theta + Real.pi * 2 / 3),
        xn + 2 * delta * Real.cos (theta + Real.pi * 4 / 3)]

/-- `cubicSolveT` of `src/estimate.ts`: the endpoints `0` and `1` followed by
the cubic's roots that lie strictly inside `(0, 1)`, in solver order. -/
noncomputable def cubicSolveT (e3 e2 e1 e0 : ℝ) : List ℝ :=
  [0, 1] ++ (cubicSolve e3 e2 e1 e0).filter (fun x => decide (0 < x ∧ x < 1))

/-- `bez2` of `src/estimate.ts`: de Casteljau evaluation of a quadratic. -/
def bez2 (a b c t : ℝ) : ℝ := mix (mix a b t) (mix b c t) t

/-- The candidate parameter list built inside `minDistanceToQuad` of
`src/estimate.ts` (`let candidates = cubicSolveT(e3, e2, e1, e0)` with the
coefficients computed from the query point and the control points).  The
source's control point `b` is written `bX`/`bY` componentwise here. -/
noncomputable def quadDistCandidates (zx zy ax ay bX bY cx cy : ℝ) : List ℝ :=
  let aax := ax + cx - 2 * bX
  let aay := ay + cy - 2 * bY
  let bbx := 2 * (bX - ax)
  let bby := 2 * (bY - ay)
  let e3 := 2 * (aax * aax + aay * aay)
  let e2 := 3 * (aax * bbx + aay * bby)
  let e1 := bbx * bbx + bby * bby + 2 * (aax * (ax - zx) + aay * (ay - zy))
  let e0 := (ax - zx) * bbx + (ay - zy) * bby
  cubicSolveT e3 e2 e1 e0

/-- The squared distance evaluated inside the loop of `minDistanceToQuad`:
`(tx - zx)^2 + (ty - zy)^2` with `tx`, `ty` the quadratic at parameter `t`. -/
def quadDistAt (zx zy ax ay bX bY cx cy t : ℝ) : ℝ :=
  let tx := bez2 ax bX cx t
  let ty := bez2 ay bY cy t
  (tx - zx) * (tx - zx) + (ty - zy) * (ty - zy)

/-- `minDistanceToQuad` of `src/estimate.ts`: the running minimum starts at
`1e9` and is lowered over all candidate parameters. -/
noncomputable def minDistanceToQuad (zx zy ax ay bX bY cx cy : ℝ) : ℝ :=
  (quadDistCandidates zx zy ax ay bX bY cx cy).foldl
    (fun minDistance t =>
      let distance := quadDistAt zx zy ax ay bX bY cx cy t
      if distance < minDistance then distance else minDistance)
    1000000000

section FoldMin

/-!  Generic facts about the `for`-loop running-minimum pattern
`let d := f q; if (d < m) m = d` that `src/estimate.ts` and `estimateError`
of `src/functional.ts` both use. -/

variable {α : Type}

/-- One step of the running minimum never increases the accumulator. -/
theorem foldMin_le_init (f : α → ℝ) (l : List α) (init : ℝ) :
    l.foldl (fun m q => if f q < m then f q else m) init ≤ init := by
  induction l generalizing init with
  | nil => exact le_refl _
  | cons a l ih =>
    simp only [List.foldl_cons]
    by_cases h : f a < init
    · rw [if_pos h]
      exact le_trans (ih (f a)) (le_of_lt h)
    · rw [if_neg h]
      exact ih init

/-- The running minimum is a lower bound of every visited value. -/
theorem foldMin_le_mem (f : α → ℝ) (l : List α) (init : ℝ) {a : α}
    (ha : a ∈ l) :
    l.foldl (fun m q => if f q < m then f q else m) init ≤ f a := by
  induction l generalizing init with
  | nil => cases ha
  | cons b l ih =>
    simp only [List.foldl_cons]
    rcases List.mem_cons.mp ha with hab | ha
    · subst hab
      by_cases h : f a < init
      · rw [if_pos h]
        exact foldMin_le_init f l (f a)
      · rw [if_neg h]
        exact le_trans (foldMin_le_init f l init) (le_of_not_lt h)
    · by_cases h : f b < init
      · rw [if_pos h]
        exact ih (f b) ha
      · rw [if_neg h]
        exact ih init ha

/-- The running minimum is either the initial value or an attained value. -/
theorem foldMin_attained (f : α → ℝ) (l : List α) (init : ℝ) :
    l.foldl (fun m q => if f q < m then f q else m) init = init ∨
      ∃ a ∈ l, l.foldl (fun m q => if f q < m then f q else m) init = f a := by
  induction l generalizing init with
  | nil => exact Or.inl rfl
  | cons b l ih =>
    simp only [List.foldl_cons]
    by_cases h : f b < init
    · rw [if_pos h]
      rcases ih (f b) with h1 | ⟨a, ha, h2⟩
      · exact Or.inr ⟨b, List.mem_cons_self b l, h1⟩
      · exact Or.inr ⟨a, List.mem_cons_of_mem b ha, h2⟩
    · rw [if_neg h]
      rcases ih init with h1 | ⟨a, ha, h2⟩
      · exact Or.inl h1
      · exact Or.inr ⟨a, List.mem_cons_of_mem b ha, h2⟩

end FoldMin

/-- Squared distances are nonnegative. -/
theorem quadDistAt_nonneg (zx zy ax ay bX bY cx cy t : ℝ) :
    0 ≤ quadDistAt zx zy ax ay bX bY cx cy t := by
  unfold quadDistAt
  exact add_nonneg (mul_self_nonneg _) (mul_self_nonneg _)

/-- The discriminant `D` computed inside `quadSolve`. -/
theorem quadSolve_eq_of_pos_discrim {a b c : ℝ} (ha : a ≠ 0)
    (hD : 0 < b * b - 4 * a * c) :
    quadSolve a b c =
      [(-b - Real.sqrt (b * b - 4 * a * c)) / (2 * a),
        (-b + Real.sqrt (b * b - 4 * a * c)) / (2 * a)] := by
  unfold quadSolve
  rw [if_neg ha, if_neg (not_lt.mpr (le_of_lt hD)), if_neg (ne_of_gt hD)]

/-- C4: `solveQuadratic(a,b,c)` — root classification.  The spec's claim is
amended in the positive-discriminant case: the two roots are returned in
ascending order only when `a` is positive; for negative `a` the order is
descending. -/
theorem quadSolve_classification (a b c : ℝ) :
    (a = 0 → b = 0 → quadSolve a b c = []) ∧
    (a = 0 → b ≠ 0 → quadSolve a b c = [-c / b]) ∧
    (a ≠ 0 → b * b - 4 * a * c < 0 → quadSolve a b c = []) ∧
    (a ≠ 0 → b * b - 4 * a * c = 0 → quadSolve a b c = [-b / (2 * a)]) ∧
    (a ≠ 0 → 0 < b * b - 4 * a * c →
      ∃ r1 r2, quadSolve a b c = [r1, r2] ∧ r1 ≠ r2 ∧
        (0 < a → r1 < r2) ∧ (a < 0 → r2 < r1)) := by
  refine ⟨?_, ?_, ?_, ?_, ?_⟩
  · intro ha hb
    unfold quadSolve
    rw [if_pos ha, if_pos hb]
  · intro ha hb
    unfold quadSolve
    rw [if_pos ha, if_neg hb]
  · intro ha hD
    unfold quadSolve
    rw [if_neg ha, if_pos hD]
  · intro ha hD
    unfold quadSolve
    rw [if_neg ha, if_neg (not_lt.mpr (le_of_eq hD.symm)), if_pos hD]
  · intro ha hD
    have hs : 0 < Real.sqrt (b * b - 4 * a * c) := Real.sqrt_pos.mpr hD
    refine ⟨_, _, quadSolve_eq_of_pos_discrim ha hD, ?_, ?_, ?_⟩
    · intro h
      have h2a : (2 : ℝ) * a ≠ 0 := mul_ne_zero two_ne_zero ha
      rw [div_eq_div_iff h2a h2a] at h
      have := mul_right_cancel₀ h2a h
      linarith
    · intro hapos
      have h2a : 0 < 2 * a := by linarith
      exact (div_lt_div_iff_of_pos_right h2a).mpr (by linarith)
    · intro haneg
      have h2a : 2 * a < 0 := by linarith
      exact (div_lt_div_right_of_neg h2a).mpr (by linarith)

/-- C4 counterexample: with `a = -1, b = 0, c = 1` the discriminant is `4 > 0`
and `quadSolve` returns `[1, -1]`, which is not in ascending order. -/
theorem quadSolve_not_ascending :
    quadSolve (-1) 0 1 = [1, -1] ∧ ¬ ((1 : ℝ) ≤ -1) := by
  have h4 : Real.sqrt (0 * 0 - 4 * (-1) * 1) = 2 := by
    rw [show (0 * 0 - 4 * (-1) * 1 : ℝ) = 2 ^ 2 by norm_num]
    exact Real.sqrt_sq (by norm_num)
  constructor
  · rw [quadSolve_eq_of_pos_discrim (by norm_num) (by norm_num), h4]
    norm_num
  · norm_num

/-- Witness for C4's theorem: the linear degenerate case at `a = 0`. -/
theorem quadSolve_classification_witness : quadSolve 0 2 6 = [-6 / 2] :=
  (quadSolve_classification 0 2 6).2.1 rfl (by norm_num)

/-- C8: `cubicSolveT` (the spec's `rootsInOpenUnitIntervalPlusEndpoints`)
always contains `0` and `1`, every entry lies in `[0, 1]`, and every entry
other than the endpoints is a root of the cubic lying strictly in `(0, 1)`. -/
theorem cubicSolveT_candidates (e3 e2 e1 e0 : ℝ) :
    (0 : ℝ) ∈ cubicSolveT e3 e2 e1 e0 ∧ (1 : ℝ) ∈ cubicSolveT e3 e2 e1 e0 ∧
    (∀ x ∈ cubicSolveT e3 e2 e1 e0, 0 ≤ x ∧ x ≤ 1) ∧
    (∀ x ∈ cubicSolveT e3 e2 e1 e0,
      x = 0 ∨ x = 1 ∨ (x ∈ cubicSolve e3 e2 e1 e0 ∧ 0 < x ∧ x < 1)) := by
  refine ⟨?_, ?_, ?_, ?_⟩
  · simp [cubicSolveT]
  · simp [cubicSolveT]
  · intro x hx
    unfold cubicSolveT at hx
    rcases List.mem_append.mp hx with h01 | hf
    · rcases List.mem_cons.mp h01 with h | h
      · subst h; norm_num
      · rcases List.mem_cons.mp h with h | h
        · subst h; norm_num
        · cases h
    · have := List.mem_filter.mp hf
      have hcond : 0 < x ∧ x < 1 := of_decide_eq_true this.2
      exact ⟨le_of_lt hcond.1, le_of_lt hcond.2⟩
  · intro x hx
    unfold cubicSolveT at hx
    rcases List.mem_append.mp hx with h01 | hf
    · rcases List.mem_cons.mp h01 with h | h
      · exact Or.inl h
      · rcases List.mem_cons.mp h with h | h
        · exact Or.inr (Or.inl h)
        · cases h
    · have := List.mem_filter.mp hf
      have hcond : 0 < x ∧ x < 1 := of_decide_eq_true this.2
      exact Or.inr (Or.inr ⟨this.1, hcond⟩)

/-- Witness for C8's theorem: the zero cubic contributes no interior roots and
the endpoint `0` is a candidate lying in `[0, 1]`. -/
theorem cubicSolveT_candidates_witness : 0 ≤ (0 : ℝ) ∧ (0 : ℝ) ≤ 1 :=
  (cubicSolveT_candidates 0 0 0 0).2.2.1 0 (cubicSolveT_candidates 0 0 0 0).1

/-- `minDistanceToQuad` untangled into the generic running-minimum fold. -/
theorem minDistanceToQuad_eq_foldl (zx zy ax ay bX bY cx cy : ℝ) :
    minDistanceToQuad zx zy ax ay bX bY cx cy =
      (quadDistCandidates zx zy ax ay bX bY cx cy).foldl
        (fun m t => if quadDistAt zx zy ax ay bX bY cx cy t < m
          then quadDistAt zx zy ax ay bX bY cx cy t else m)
        1000000000 := rfl

/-- The candidate list always contains the endpoint `0`. -/
theorem zero_mem_quadDistCandidates (zx zy ax ay bX bY cx cy : ℝ) :
    (0 : ℝ) ∈ quadDistCandidates zx zy ax ay bX bY cx cy := by
  unfold quadDistCandidates
  simp [cubicSolveT]

/-- C10: the value of `minDistanceToQuad` lies in `[0, 1e9]`, and whenever the
squared distance at every candidate parameter exceeds the initial value `1e9`,
the function returns the cap `1e9` itself. -/
theorem minDistanceToQuad_bounds (zx zy ax ay bX bY cx cy : ℝ) :
    0 ≤ minDistanceToQuad zx zy ax ay bX bY cx cy ∧
    minDistanceToQuad zx zy ax ay bX bY cx cy ≤ 1000000000 ∧
    ((∀ t ∈ quadDistCandidates zx zy ax ay bX bY cx cy,
        1000000000 < quadDistAt zx zy ax ay bX bY cx cy t) →
      minDistanceToQuad zx zy ax ay bX bY cx cy = 1000000000) := by
  refine ⟨?_, ?_, ?_⟩
  · rcases foldMin_attained (quadDistAt zx zy ax ay bX bY cx cy)
        (quadDistCandidates zx zy ax ay bX bY cx cy) 1000000000 with h | ⟨t, _, h⟩
    · rw [minDistanceToQuad_eq_foldl, h]; norm_num
    · rw [minDistanceToQuad_eq_foldl, h]
      exact quadDistAt_nonneg zx zy ax ay bX bY cx cy t
  · rw [minDistanceToQuad_eq_foldl]
    exact foldMin_le_init _ _ _
  · intro hall
    rcases foldMin_attained (quadDistAt zx zy ax ay bX bY cx cy)
        (quadDistCandidates zx zy ax ay bX bY cx cy) 1000000000 with h | ⟨t, ht, h⟩
    · rw [minDistanceToQuad_eq_foldl, h]
    · exfalso
      have h1 : minDistanceToQuad zx zy ax ay bX bY cx cy ≤ 1000000000 := by
        rw [minDistanceToQuad_eq_foldl]
        exact foldMin_le_init _ _ _
      have h2 := hall t ht
      rw [minDistanceToQuad_eq_foldl, h] at h1
      linarith

/-- On the fully degenerate quadratic (all control points at the origin) the
cubic is identically zero and the candidate list is just the endpoints. -/
theorem quadDistCandidates_degenerate (zx zy : ℝ) :
    quadDistCandidates zx zy 0 0 0 0 0 0 = [0, 1] := by
  unfold quadDistCandidates cubicSolveT cubicSolve quadSolve
  norm_num

/-- On the fully degenerate quadratic the squared distance is constant. -/
theorem quadDistAt_degenerate (zx zy t : ℝ) :
    quadDistAt zx zy 0 0 0 0 0 0 t = zx * zx + zy * zy := by
  unfold quadDistAt bez2 mix
  ring

/-- C2 counterexample: for the query point `(100000, 0)` against the
degenerate quadratic at the origin, the squared distance at every candidate
parameter is `1e10`, yet `minDistanceToQuad` returns its initial value `1e9` —
not the minimum of the candidate squared distances. -/
theorem minDistanceToQuad_cap_counterexample :
    minDistanceToQuad 100000 0 0 0 0 0 0 0 = 1000000000 ∧
    quadDistCandidates 100000 0 0 0 0 0 0 0 = [0, 1] ∧
    quadDistAt 100000 0 0 0 0 0 0 0 0 = 10000000000 ∧
    quadDistAt 100000 0 0 0 0 0 0 0 1 = 10000000000 ∧
    (1000000000 : ℝ) ≠ 10000000000 := by
  refine ⟨?_, quadDistCandidates_degenerate 100000 0, ?_, ?_, by norm_num⟩
  · rw [minDistanceToQuad_eq_foldl, quadDistCandidates_degenerate]
    simp only [List.foldl_cons, List.foldl_nil, quadDistAt_degenerate]
    norm_num
  · rw [quadDistAt_degenerate]
    norm_num
  · rw [quadDistAt_degenerate]
    norm_num

/-- C2 (amended): `minDistanceToQuad` returns the minimum of the squared
distances at the candidate parameters and of the initial cap `1e9`: it is a
lower bound of all candidate squared distances, is at most `1e9`, and is
attained either at a candidate or as the cap itself. -/
theorem minDistanceToQuad_is_min (zx zy ax ay bX bY cx cy : ℝ) :
    (minDistanceToQuad zx zy ax ay bX bY cx cy = 1000000000 ∨
      ∃ t ∈ quadDistCandidates zx zy ax ay bX bY cx cy,
        minDistanceToQuad zx zy ax ay bX bY cx cy =
          quadDistAt zx zy ax ay bX bY cx cy t) ∧
    (∀ t ∈ quadDistCandidates zx zy ax ay bX bY cx cy,
      minDistanceToQuad zx zy ax ay bX bY cx cy ≤
        quadDistAt zx zy ax ay bX bY cx cy t) ∧
    minDistanceToQuad zx zy ax ay bX bY cx cy ≤ 1000000000 := by
  refine ⟨?_, ?_, ?_⟩
  · rcases foldMin_attained (quadDistAt zx zy ax ay bX bY cx cy)
        (quadDistCandidates zx zy ax ay bX bY cx cy) 1000000000 with h | ⟨t, ht, h⟩
    · exact Or.inl (by rw [minDistanceToQuad_eq_foldl, h])
    · exact Or.inr ⟨t, ht, by rw [minDistanceToQuad_eq_foldl, h]⟩
  · intro t ht
    rw [minDistanceToQuad_eq_foldl]
    exact foldMin_le_mem _ _ _ ht
  · rw [minDistanceToQuad_eq_foldl]
    exact foldMin_le_init _ _ _

/-- Witness for C2's amended theorem at a concrete candidate parameter. -/
theorem minDistanceToQuad_is_min_witness :
    minDistanceToQuad 3 4 0 0 0 0 0 0 ≤ quadDistAt 3 4 0 0 0 0 0 0 0 :=
  (minDistanceToQuad_is_min 3 4 0 0 0 0 0 0).2.1 0
    (by rw [quadDistCandidates_degenerate]; norm_num)

/-- Witness for C10's theorem: with the query point `(200000, 0)` every
candidate squared distance is `4e10 > 1e9`, and the cap is returned. -/
theorem minDistanceToQuad_bounds_witness :
    minDistanceToQuad 200000 0 0 0 0 0 0 0 = 1000000000 :=
  (minDistanceToQuad_bounds 200000 0 0 0 0 0 0 0).2.2 (by
    intro t ht
    rw [quadDistAt_degenerate]
    norm_num)

/-- The determinant `det = d2.x * d1.y - d2.y * d1.x` of `findIntersection`
in `src/functional.ts`. -/
def rayDet (d1 d2 : Point2d) : ℝ := d2.x * d1.y - d2.y * d1.x

/-- The numerator `numU` of `findIntersection` in `src/functional.ts`. -/
def rayNumU (p1 d2 p2 : Point2d) : ℝ :=
  (p2.y - p1.y) * d2.x - (p2.x - p1.x) * d2.y

/-- The numerator `numV` of `findIntersection` in `src/functional.ts`. -/
def rayNumV (p1 d1 p2 : Point2d) : ℝ :=
  (p2.y - p1.y) * d1.x - (p2.x - p1.x) * d1.y

/-- `findIntersection` of `src/functional.ts`: intersection of the tangent
ray at the start point with the (outward) tangent ray at the end point. -/
noncomputable def findIntersection (p1 d1 d2 p2 : Point2d) : Option Point2d :=
  let det := rayDet d1 d2
  let numU := rayNumU p1 d2 p2
  let numV := rayNumV p1 d1 p2
  if |det| < 1 / 1000000 then
    if |numU| < 1 / 1000000000000 ∧ |numV| < 1 / 1000000000000 ∧
        numU * det ≤ 0 ∧ numV * det ≥ 0 then
      some ⟨(p1.x + p2.x) / 2, (p1.y + p2.y) / 2⟩
    else none
  else
    let u := numU / det
    let v := numV / det
    if u ≤ 0 ∨ v ≥ 0 then none
    else some ⟨p1.x + d1.x * u, p1.y + d1.y * u⟩

/-- C3: `findIntersection` fails exactly when either the determinant is below
the tolerance and the degenerate-midpoint conditions do not all hold, or the
determinant is non-degenerate and the ray parameters violate `u > 0 ∧ v < 0`;
in the degenerate accepting case it returns the midpoint of `p1` and `p2`,
and otherwise the point on the start ray at parameter `u`. -/
theorem findIntersection_characterization (p1 d1 d2 p2 : Point2d) :
    (findIntersection p1 d1 d2 p2 = none ↔
      ((|rayDet d1 d2| < 1 / 1000000 ∧
          ¬(|rayNumU p1 d2 p2| < 1 / 1000000000000 ∧
            |rayNumV p1 d1 p2| < 1 / 1000000000000 ∧
            rayNumU p1 d2 p2 * rayDet d1 d2 ≤ 0 ∧
            rayNumV p1 d1 p2 * rayDet d1 d2 ≥ 0)) ∨
        (1 / 1000000 ≤ |rayDet d1 d2| ∧
          ¬(0 < rayNumU p1 d2 p2 / rayDet d1 d2 ∧
            rayNumV p1 d1 p2 / rayDet d1 d2 < 0)))) ∧
    ((|rayDet d1 d2| < 1 / 1000000 ∧
        |rayNumU p1 d2 p2| < 1 / 1000000000000 ∧
        |rayNumV p1 d1 p2| < 1 / 1000000000000 ∧
        rayNumU p1 d2 p2 * rayDet d1 d2 ≤ 0 ∧
        rayNumV p1 d1 p2 * rayDet d1 d2 ≥ 0) →
      findIntersection p1 d1 d2 p2 =
        some ⟨(p1.x + p2.x) / 2, (p1.y + p2.y) / 2⟩) ∧
    ((1 / 1000000 ≤ |rayDet d1 d2| ∧
        0 < rayNumU p1 d2 p2 / rayDet d1 d2 ∧
        rayNumV p1 d1 p2 / rayDet d1 d2 < 0) →
      findIntersection p1 d1 d2 p2 =
        some ⟨p1.x + d1.x * (rayNumU p1 d2 p2 / rayDet d1 d2),
          p1.y + d1.y * (rayNumU p1 d2 p2 / rayDet d1 d2)⟩) := by
  refine ⟨?_, ?_, ?_⟩
  · unfold findIntersection
    by_cases hdet : |rayDet d1 d2| < 1 / 1000000
    · rw [if_pos hdet]
      by_cases hdg : |rayNumU p1 d2 p2| < 1 / 1000000000000 ∧
          |rayNumV p1 d1 p2| < 1 / 1000000000000 ∧
          rayNumU p1 d2 p2 * rayDet d1 d2 ≤ 0 ∧
          rayNumV p1 d1 p2 * rayDet d1 d2 ≥ 0
      · rw [if_pos hdg]
        simp only [reduceCtorEq, false_iff]
        intro hcon
        rcases hcon with ⟨_, hn⟩ | ⟨hge, _⟩
        · exact hn hdg
        · exact absurd hdet (not_lt.mpr hge)
      · rw [if_neg hdg]
        simp only [true_iff]
        exact Or.inl ⟨hdet, hdg⟩
    · rw [if_neg hdet]
      by_cases huv : rayNumU p1 d2 p2 / rayDet d1 d2 ≤ 0 ∨
          rayNumV p1 d1 p2 / rayDet d1 d2 ≥ 0
      · rw [if_pos huv]
        simp only [true_iff]
        refine Or.inr ⟨not_lt.mp hdet, ?_⟩
        rcases huv with h | h
        · intro hc
          exact absurd h (not_le.mpr hc.1)
        · intro hc
          exact absurd h (not_le.mpr hc.2)
      · rw [if_neg huv]
        simp only [reduceCtorEq, false_iff]
        push_neg at huv
        intro hcon
        rcases hcon with ⟨h1, _⟩ | ⟨_, h2⟩
        · exact hdet h1
        · exact h2 ⟨huv.1, huv.2⟩
  · intro ⟨hdet, hdg⟩
    unfold findIntersection
    rw [if_pos hdet, if_pos hdg]
  · intro ⟨hdet, hu, hv⟩
    unfold findIntersection
    rw [if_neg (not_lt.mpr hdet), if_neg (by push_neg; exact ⟨hu, hv⟩)]

/-- Witness for C3's theorem: the tangents of the parabola `(t, t^2)` meet at
`(1/2, 0)`; the determinant is `-2` and `(u, v) = (1/2, -1/2)`. -/
theorem findIntersection_characterization_witness :
    findIntersection ⟨0, 0⟩ ⟨1, 0⟩ ⟨1, 2⟩ ⟨1, 1⟩ = some ⟨1 / 2, 0⟩ := by
  have hdet : rayDet ⟨1, 0⟩ ⟨1, 2⟩ = -2 := by unfold rayDet; norm_num
  have hnu : rayNumU ⟨0, 0⟩ ⟨1, 2⟩ ⟨1, 1⟩ = -1 := by unfold rayNumU; norm_num
  have hnv : rayNumV ⟨0, 0⟩ ⟨1, 0⟩ ⟨1, 1⟩ = 1 := by unfold rayNumV; norm_num
  have h := (findIntersection_characterization ⟨0, 0⟩ ⟨1, 0⟩ ⟨1, 2⟩ ⟨1, 1⟩).2.2
    (by rw [hdet, hnu, hnv]; norm_num [abs_of_neg])
  rw [hdet, hnu] at h
  rw [h]
  norm_num

/-- `getMatrix` of `src/functional.ts`, as a function of the entry position.
The imperative fill writes each cell at most once (all written cells are
distinct), so the matrix is the pointwise description of the writes:

* row `0` has `1` at column `X(0) = 0` (and an explicit `0` at `Y(0)`);
* row `1` has `1` at column `X(n-1) = 2*n - 2`;
* row `2` has `1` at column `Y(0) = 1`;
* row `3` has `1` at column `Y(n-1) = 2*n - 1`;
* for `j = 1 .. n-2` the loop writes row `X(j+1) = 2*j + 2` at columns
  `X(j-1) = 2*j - 2`, `X(j)`, `X(j+1)` and row `Y(j+1) = 2*j + 3` at columns
  `Y(j-1)`, `Y(j)`, `Y(j+1)` with values `1/8, 3/4, 1/8`; in both cases the
  written columns are `row - 4`, `row - 2` and `row`, and the written rows
  are exactly the rows `4 ≤ row < 2*n`;
* every other cell keeps its initial `0`. -/
noncomputable def getMatrix (n : ℕ) : Matrix (Fin (2 * n)) (Fin (2 * n)) ℝ :=
  Matrix.of fun j k =>
    if (j : ℕ) = 0 then (if (k : ℕ) = 0 then 1 else 0)
    else if (j : ℕ) = 1 then (if (k : ℕ) = 2 * n - 2 then 1 else 0)
    else if (j : ℕ) = 2 then (if (k : ℕ) = 1 then 1 else 0)
    else if (j : ℕ) = 3 then (if (k : ℕ) = 2 * n - 1 then 1 else 0)
    else if (k : ℕ) = (j : ℕ) - 4 then 1 / 8
    else if (k : ℕ) = (j : ℕ) - 2 then 3 / 4
    else if (k : ℕ) = (j : ℕ) then 1 / 8
    else 0

/-- `getResults` of `src/functional.ts`, as a function of the index.  The
boundary writes fill indices `0..3`; the loop writes, for `j = 1 .. n-2`,
index `X(j+1) = 2*j + 2` with `c.eval((j + 1/2)/n).x` and index
`Y(j+1) = 2*j + 3` with the `y` coordinate; in both cases
`j = idx / 2 - 1`, and all other indices keep their initial `0`.  (For
`4 ≤ idx < 2*n` the index is always written, so no `0` default remains.) -/
noncomputable def getResults (c : Curve) (n : ℕ) : Fin (2 * n) → ℝ :=
  fun idx =>
    if (idx : ℕ) = 0 then (c.eval 0).x + (c.derivative 0).x * (1 / (2 * n))
    else if (idx : ℕ) = 1 then (c.eval 1).x - (c.derivative 1).x * (1 / (2 * n))
    else if (idx : ℕ) = 2 then (c.eval 0).y + (c.derivative 0).y * (1 / (2 * n))
    else if (idx : ℕ) = 3 then (c.eval 1).y - (c.derivative 1).y * (1 / (2 * n))
    else if (idx : ℕ) % 2 = 0 then
      (c.eval ((((idx : ℕ) / 2 - 1 : ℕ) + 1 / 2) / n)).x
    else
      (c.eval ((((idx : ℕ) / 2 - 1 : ℕ) + 1 / 2) / n)).y

/-- The `n ≥ 2` branch of `quadifyCurve` in `src/functional.ts`: multiply the
inverse of the system matrix by the right-hand side and read off the `n`
points `(rs[X(j)], rs[Y(j)])`.  `math.inv` throws on a singular matrix; the
thrown exception is modelled as `none`. -/
noncomputable def quadifySpline (c : Curve) (n : ℕ) : Option (List Point2d) :=
  if (getMatrix n).det = 0 then none
  else
    let rs := (getMatrix n)⁻¹.mulVec (getResults c n)
    some (List.ofFn (fun j : Fin n =>
      ⟨rs ⟨2 * (j : ℕ), by have := j.isLt; omega⟩,
        rs ⟨2 * (j : ℕ) + 1, by have := j.isLt; omega⟩⟩))

/-- `quadifyCurve` of `src/functional.ts`.  The JavaScript `n` is a number
that may be nonpositive, modelled as an integer. -/
noncomputable def quadifyCurve (c : Curve) (n : ℤ) : Option (List Point2d) :=
  if n ≤ 0 then some []
  else if n = 1 then
    match findIntersection (c.eval 0) (c.derivative 0) (c.derivative 1) (c.eval 1) with
    | some m => some [m]
    | none => none
  else quadifySpline c n.toNat

/-- The parabola `t ↦ (t, t^2)`, a concrete `Curve` used as a witness input. -/
noncomputable def parabola : Curve :=
  ⟨fun t => ⟨t, t * t⟩, fun t => ⟨1, 2 * t⟩⟩

/-- C9: `quadifyCurve` returns an empty sequence — not a failure — for every
`n ≤ 0`. -/
theorem quadifyCurve_nonpositive (c : Curve) (n : ℤ) (hn : n ≤ 0) :
    quadifyCurve c n = some [] := by
  unfold quadifyCurve
  rw [if_pos hn]

/-- Witness for C9's theorem at `n = 0`. -/
theorem quadifyCurve_nonpositive_witness : quadifyCurve parabola 0 = some [] :=
  quadifyCurve_nonpositive parabola 0 (le_refl 0)

/-- Maximum principle for the interior smoothing relation: a sequence that is
pinned to `0` at both ends and satisfies
`(1/8)*w(i-1) + (3/4)*w(i) + (1/8)*w(i+1) = 0` at all interior indices
vanishes, because at an index of maximal absolute value the relation forces
`(3/4)*M ≤ (1/4)*M`. -/
theorem chain_all_zero (N : ℕ) (w : ℕ → ℝ)
    (h0 : w 0 = 0) (hlast : w (N - 1) = 0)
    (hmid : ∀ i, 1 ≤ i → i ≤ N - 2 →
      (1 / 8) * w (i - 1) + (3 / 4) * w i + (1 / 8) * w (i + 1) = 0) :
    ∀ i, i < N → w i = 0 := by
  rcases Nat.eq_zero_or_pos N with hN | hN
  · intro i hi
    rw [hN] at hi
    exact absurd hi (Nat.not_lt_zero i)
  have hne : (Finset.range N).Nonempty := ⟨0, Finset.mem_range.mpr hN⟩
  obtain ⟨m, hm, hM⟩ := Finset.exists_mem_eq_sup' (H := hne) (fun i : ℕ => |w i|)
  have hle : ∀ i ∈ Finset.range N, |w i| ≤ |w m| := by
    intro i hi
    rw [← hM]
    exact Finset.le_sup' (fun i : ℕ => |w i|) hi
  have hm0 : |w m| ≤ 0 := by
    by_cases hcase : m = 0 ∨ m = N - 1
    · rcases hcase with h | h
      · rw [h, h0]; simp
      · rw [h, hlast]; simp
    · push_neg at hcase
      have h1 : 1 ≤ m := by omega
      have h2 : m ≤ N - 2 := by
        have := Finset.mem_range.mp hm
        omega
    -- the smoothing relation at the maximal index
      have heq := hmid m h1 h2
      have heq2 : (3 / 4 : ℝ) * w m =
          -((1 / 8) * w (m - 1) + (1 / 8) * w (m + 1)) := by linarith
      have habs : |(3 / 4 : ℝ) * w m| =
          |(1 / 8) * w (m - 1) + (1 / 8) * w (m + 1)| := by
        rw [heq2, abs_neg]
      rw [abs_mul, abs_of_pos (by norm_num : (0 : ℝ) < 3 / 4)] at habs
      have hb1 : |w (m - 1)| ≤ |w m| := by
        refine hle _ (Finset.mem_range.mpr ?_)
        have := Finset.mem_range.mp hm
        omega
      have hb2 : |w (m + 1)| ≤ |w m| := by
        refine hle _ (Finset.mem_range.mpr ?_)
        omega
      have hchain : (3 / 4 : ℝ) * |w m| ≤ (1 / 8) * |w (m - 1)| + (1 / 8) * |w (m + 1)| := by
        rw [habs]
        calc |(1 / 8 : ℝ) * w (m - 1) + (1 / 8) * w (m + 1)|
            ≤ |(1 / 8 : ℝ) * w (m - 1)| + |(1 / 8) * w (m + 1)| := abs_add _ _
          _ = (1 / 8) * |w (m - 1)| + (1 / 8) * |w (m + 1)| := by
              rw [abs_mul, abs_mul,
                abs_of_pos (show (0 : ℝ) < 1 / 8 by norm_num)]
      linarith
  intro i hi
  have h1 := hle i (Finset.mem_range.mpr hi)
  have h2 : |w i| ≤ 0 := le_trans h1 hm0
  exact abs_eq_zero.mp (le_antisymm h2 (abs_nonneg _))

/-- A row with a single `1` entry picks out one coordinate of the vector. -/
theorem sum_single_col {n : ℕ} (v : Fin n → ℝ) (a : Fin n) :
    (∑ k : Fin n, (if (k : ℕ) = (a : ℕ) then (1 : ℝ) else 0) * v k) = v a := by
  rw [Finset.sum_eq_single a]
  · rw [if_pos rfl, one_mul]
  · intro b _ hb
    rw [if_neg (fun h => hb (Fin.ext h)), zero_mul]
  · intro h
    exact absurd (Finset.mem_univ a) h

/-- A banded row with entries `1/8, 3/4, 1/8` at three distinct columns. -/
theorem sum_band_row {n : ℕ} (v : Fin n → ℝ) (a b c : Fin n)
    (hab : a ≠ b) (hac : a ≠ c) (hbc : b ≠ c) :
    (∑ k : Fin n,
      (if (k : ℕ) = (a : ℕ) then (1 / 8 : ℝ)
        else if (k : ℕ) = (b : ℕ) then 3 / 4
        else if (k : ℕ) = (c : ℕ) then 1 / 8 else 0) * v k) =
      (1 / 8) * v a + (3 / 4) * v b + (1 / 8) * v c := by
  have hsplit : ∀ k : Fin n,
      (if (k : ℕ) = (a : ℕ) then (1 / 8 : ℝ)
        else if (k : ℕ) = (b : ℕ) then 3 / 4
        else if (k : ℕ) = (c : ℕ) then 1 / 8 else 0) * v k =
      (if k = a then (1 / 8) * v k else 0) +
        ((if k = b then (3 / 4) * v k else 0) +
          (if k = c then (1 / 8) * v k else 0)) := by
    intro k
    by_cases hka : k = a
    · subst hka
      rw [if_pos rfl, if_pos rfl, if_neg hab, if_neg hac]
      ring
    · rw [if_neg hka, if_neg (fun h => hka (Fin.ext h))]
      by_cases hkb : k = b
      · subst hkb
        rw [if_pos rfl, if_pos rfl, if_neg hbc]
        ring
      · rw [if_neg hkb, if_neg (fun h => hkb (Fin.ext h))]
        by_cases hkc : k = c
        · subst hkc
          rw [if_pos rfl, if_pos rfl]
          ring
        · rw [if_neg hkc, if_neg (fun h => hkc (Fin.ext h))]
          ring
  calc (∑ k : Fin n,
      (if (k : ℕ) = (a : ℕ) then (1 / 8 : ℝ)
        else if (k : ℕ) = (b : ℕ) then 3 / 4
        else if (k : ℕ) = (c : ℕ) then 1 / 8 else 0) * v k)
      = ∑ k : Fin n,
        ((if k = a then (1 / 8) * v k else 0) +
          ((if k = b then (3 / 4) * v k else 0) +
            (if k = c then (1 / 8) * v k else 0))) :=
        Finset.sum_congr rfl (fun k _ => hsplit k)
    _ = (1 / 8) * v a + (3 / 4) * v b + (1 / 8) * v c := by
        rw [Finset.sum_add_distrib, Finset.sum_add_distrib,
          Finset.sum_ite_eq' Finset.univ a (fun k => (1 / 8 : ℝ) * v k),
          Finset.sum_ite_eq' Finset.univ b (fun k => (3 / 4 : ℝ) * v k),
          Finset.sum_ite_eq' Finset.univ c (fun k => (1 / 8 : ℝ) * v k),
          if_pos (Finset.mem_univ a), if_pos (Finset.mem_univ b),
          if_pos (Finset.mem_univ c)]
        ring

/-- The four boundary rows of the system each read off one coordinate. -/
theorem getMatrix_mulVec_boundary (n : ℕ) (hn : 2 ≤ n) (v : Fin (2 * n) → ℝ) :
    (getMatrix n).mulVec v ⟨0, by omega⟩ = v ⟨0, by omega⟩ ∧
    (getMatrix n).mulVec v ⟨1, by omega⟩ = v ⟨2 * n - 2, by omega⟩ ∧
    (getMatrix n).mulVec v ⟨2, by omega⟩ = v ⟨1, by omega⟩ ∧
    (getMatrix n).mulVec v ⟨3, by omega⟩ = v ⟨2 * n - 1, by omega⟩ := by
  refine ⟨?_, ?_, ?_, ?_⟩
  · show (∑ k : Fin (2 * n), getMatrix n ⟨0, by omega⟩ k * v k) = _
    rw [show v ⟨0, by omega⟩ =
        v (⟨0, by omega⟩ : Fin (2 * n)) from rfl]
    rw [← sum_single_col v (⟨0, by omega⟩ : Fin (2 * n))]
    refine Finset.sum_congr rfl (fun k _ => ?_)
    simp [getMatrix]
  · show (∑ k : Fin (2 * n), getMatrix n ⟨1, by omega⟩ k * v k) = _
    rw [← sum_single_col v (⟨2 * n - 2, by omega⟩ : Fin (2 * n))]
    refine Finset.sum_congr rfl (fun k _ => ?_)
    simp [getMatrix]
  · show (∑ k : Fin (2 * n), getMatrix n ⟨2, by omega⟩ k * v k) = _
    rw [← sum_single_col v (⟨1, by omega⟩ : Fin (2 * n))]
    refine Finset.sum_congr rfl (fun k _ => ?_)
    simp [getMatrix]
  · show (∑ k : Fin (2 * n), getMatrix n ⟨3, by omega⟩ k * v k) = _
    rw [← sum_single_col v (⟨2 * n - 1, by omega⟩ : Fin (2 * n))]
    refine Finset.sum_congr rfl (fun k _ => ?_)
    simp [getMatrix]

/-- Rows `4 ≤ r < 2*n` of the system are the smoothing rows, with entries
`1/8, 3/4, 1/8` at columns `r - 4`, `r - 2`, `r`. -/
theorem getMatrix_mulVec_band (n : ℕ) (_hn : 2 ≤ n) (v : Fin (2 * n) → ℝ)
    (r : ℕ) (hr4 : 4 ≤ r) (hr : r < 2 * n) :
    (getMatrix n).mulVec v ⟨r, hr⟩ =
      (1 / 8) * v ⟨r - 4, by omega⟩ + (3 / 4) * v ⟨r - 2, by omega⟩ +
        (1 / 8) * v ⟨r, hr⟩ := by
  show (∑ k : Fin (2 * n), getMatrix n ⟨r, hr⟩ k * v k) = _
  rw [← sum_band_row v ⟨r - 4, by omega⟩ ⟨r - 2, by omega⟩ ⟨r, hr⟩
    (Fin.ne_of_val_ne (by simp only [Fin.val_mk]; omega))
    (Fin.ne_of_val_ne (by simp only [Fin.val_mk]; omega))
    (Fin.ne_of_val_ne (by simp only [Fin.val_mk]; omega))]
  refine Finset.sum_congr rfl (fun k _ => ?_)
  simp only [getMatrix, Matrix.of_apply, Fin.val_mk]
  rw [if_neg (by omega : ¬ r = 0), if_neg (by omega : ¬ r = 1),
    if_neg (by omega : ¬ r = 2), if_neg (by omega : ¬ r = 3)]

/-- The system matrix has trivial kernel: boundary rows pin the four extreme
coordinates to zero, and the smoothing rows propagate zero through the even
and odd chains by the maximum principle. -/
theorem getMatrix_kernel (n : ℕ) (hn : 2 ≤ n) (v : Fin (2 * n) → ℝ)
    (hv : (getMatrix n).mulVec v = 0) : v = 0 := by
  have hrow : ∀ j : Fin (2 * n), (getMatrix n).mulVec v j = 0 :=
    fun j => congrFun hv j
  obtain ⟨hb0, hb1, hb2, hb3⟩ := getMatrix_mulVec_boundary n hn v
  set w : ℕ → ℝ := fun i => if h : i < 2 * n then v ⟨i, h⟩ else 0 with hwdef
  have hwv : ∀ (i : ℕ) (h : i < 2 * n), w i = v ⟨i, h⟩ := by
    intro i h
    simp only [hwdef]
    rw [dif_pos h]
  have hw0 : w 0 = 0 := by
    rw [hwv 0 (by omega), ← hb0]
    exact hrow _
  have hw1 : w 1 = 0 := by
    rw [hwv 1 (by omega), ← hb2]
    exact hrow _
  have hwn2 : w (2 * n - 2) = 0 := by
    rw [hwv (2 * n - 2) (by omega), ← hb1]
    exact hrow _
  have hwn1 : w (2 * n - 1) = 0 := by
    rw [hwv (2 * n - 1) (by omega), ← hb3]
    exact hrow _
  have hband : ∀ r, 4 ≤ r → (hr : r < 2 * n) →
      (1 / 8) * w (r - 4) + (3 / 4) * w (r - 2) + (1 / 8) * w r = 0 := by
    intro r hr4 hr
    have hb := getMatrix_mulVec_band n hn v r hr4 hr
    rw [hrow] at hb
    rw [hwv (r - 4) (by omega), hwv (r - 2) (by omega), hwv r hr]
    exact hb.symm
  have heven : ∀ i, i < n → w (2 * i) = 0 := by
    refine chain_all_zero n (fun i => w (2 * i)) (by simpa using hw0) ?_ ?_
    · show w (2 * (n - 1)) = 0
      rw [show 2 * (n - 1) = 2 * n - 2 by omega]
      exact hwn2
    · intro i h1 h2
      show (1 / 8) * w (2 * (i - 1)) + (3 / 4) * w (2 * i) +
        (1 / 8) * w (2 * (i + 1)) = 0
      have hb := hband (2 * i + 2) (by omega) (by omega)
      rw [show 2 * i + 2 - 2 = 2 * i by omega] at hb
      rw [show 2 * (i - 1) = 2 * i + 2 - 4 by omega,
        show 2 * (i + 1) = 2 * i + 2 by omega]
      linarith
  have hodd : ∀ i, i < n → w (2 * i + 1) = 0 := by
    refine chain_all_zero n (fun i => w (2 * i + 1)) (by simpa using hw1) ?_ ?_
    · show w (2 * (n - 1) + 1) = 0
      rw [show 2 * (n - 1) + 1 = 2 * n - 1 by omega]
      exact hwn1
    · intro i h1 h2
      show (1 / 8) * w (2 * (i - 1) + 1) + (3 / 4) * w (2 * i + 1) +
        (1 / 8) * w (2 * (i + 1) + 1) = 0
      have hb := hband (2 * i + 3) (by omega) (by omega)
      rw [show 2 * i + 3 - 2 = 2 * i + 1 by omega] at hb
      rw [show 2 * (i - 1) + 1 = 2 * i + 3 - 4 by omega,
        show 2 * (i + 1) + 1 = 2 * i + 3 by omega]
      linarith
  funext j
  rw [Pi.zero_apply]
  have hj := j.isLt
  rcases Nat.even_or_odd (j : ℕ) with ⟨i, hi⟩ | ⟨i, hi⟩
  · have h1 : w (2 * i) = v j := by
      rw [hwv (2 * i) (by omega)]
      congr 1
      exact Fin.ext (by simp only [Fin.val_mk]; omega)
    rw [← h1]
    exact heven i (by omega)
  · have h1 : w (2 * i + 1) = v j := by
      rw [hwv (2 * i + 1) (by omega)]
      congr 1
      exact Fin.ext (by simp only [Fin.val_mk]; omega)
    rw [← h1]
    exact hodd i (by omega)

/-- The spline system matrix is nonsingular for every `n ≥ 2`. -/
theorem getMatrix_det_ne_zero (n : ℕ) (hn : 2 ≤ n) : (getMatrix n).det ≠ 0 := by
  intro hdet
  obtain ⟨v, hv0, hv⟩ := Matrix.exists_mulVec_eq_zero_iff.mpr hdet
  exact hv0 (getMatrix_kernel n hn v hv)

/-- C6: for `n ≥ 1`, whenever `quadifyCurve` returns an off-curve sequence it
has length exactly `n`, and for `n ≥ 2` it never fails: the system matrix is
nonsingular, so the spline branch always produces exactly `n` points. -/
theorem quadifyCurve_length (c : Curve) (n : ℤ) (hn : 1 ≤ n) :
    (∀ ps, quadifyCurve c n = some ps → (ps.length : ℤ) = n) ∧
    (2 ≤ n → ∃ ps, quadifyCurve c n = some ps ∧ (ps.length : ℤ) = n) := by
  by_cases h1 : n = 1
  · subst h1
    constructor
    · intro ps hps
      unfold quadifyCurve at hps
      rw [if_neg (by omega : ¬ (1 : ℤ) ≤ 0), if_pos rfl] at hps
      cases hfi : findIntersection (c.eval 0) (c.derivative 0) (c.derivative 1)
          (c.eval 1) with
      | some m =>
        rw [hfi] at hps
        simp only [Option.some.injEq] at hps
        rw [← hps]
        simp
      | none =>
        rw [hfi] at hps
        simp at hps
    · intro h2
      omega
  · have h2 : 2 ≤ n := by omega
    have hdet := getMatrix_det_ne_zero n.toNat (by omega)
    constructor
    · intro ps hps
      unfold quadifyCurve quadifySpline at hps
      rw [if_neg (by omega : ¬ n ≤ 0), if_neg h1, if_neg hdet] at hps
      simp only [Option.some.injEq] at hps
      rw [← hps]
      simp only [List.length_ofFn]
      omega
    · intro _
      have hq : ∃ ps, quadifyCurve c n = some ps := by
        unfold quadifyCurve quadifySpline
        rw [if_neg (by omega : ¬ n ≤ 0), if_neg h1, if_neg hdet]
        exact ⟨_, rfl⟩
      obtain ⟨ps, hps⟩ := hq
      refine ⟨ps, hps, ?_⟩
      unfold quadifyCurve quadifySpline at hps
      rw [if_neg (by omega : ¬ n ≤ 0), if_neg h1, if_neg hdet] at hps
      simp only [Option.some.injEq] at hps
      rw [← hps]
      simp only [List.length_ofFn]
      omega

/-- Witness for C6's theorem: the `n = 2` fit of the parabola exists and has
exactly two off-curve points. -/
theorem quadifyCurve_length_witness :
    ∃ ps, quadifyCurve parabola 2 = some ps ∧ (ps.length : ℤ) = 2 :=
  (quadifyCurve_length parabola 2 (by norm_num)).2 (le_refl 2)

open Classical in
/-- Modelled from the spec: the older revision (`src/unnamed/part_002`) solves
the same linear system with `math.lusolve(matrix, results)` from the external
`mathjs` library, whose code is not part of this repository.  Per the spec
(§4.4), solving the system is "equivalent to, but more efficient than, a
fresh elimination per call": an LU elimination returns the solution of the
system when the matrix is nonsingular (the solution is then unique) and
throws on a singular system, modelled as `none`. -/
noncomputable def lusolve {m : ℕ} (A : Matrix (Fin m) (Fin m) ℝ)
    (b : Fin m → ℝ) : Option (Fin m → ℝ) :=
  if h : ∃! x, A.mulVec x = b then some h.choose else none

/-- `quadifyCurve` of `src/unnamed/part_002`: identical to the current
revision except that the `n ≥ 2` system (same matrix, same right-hand side,
built inline there) is solved by a fresh `math.lusolve` elimination per call
instead of multiplication by the cached inverse. -/
noncomputable def quadifyCurveLU (c : Curve) (n : ℤ) : Option (List Point2d) :=
  if n ≤ 0 then some []
  else if n = 1 then
    match findIntersection (c.eval 0) (c.derivative 0) (c.derivative 1) (c.eval 1) with
    | some m => some [m]
    | none => none
  else
    match lusolve (getMatrix n.toNat) (getResults c n.toNat) with
    | none => none
    | some rs => some (List.ofFn (fun j : Fin n.toNat =>
        ⟨rs ⟨2 * (j : ℕ), by have := j.isLt; omega⟩,
          rs ⟨2 * (j : ℕ) + 1, by have := j.isLt; omega⟩⟩))

/-- C5: for every curve and every `n ≥ 2`, multiplying the inverse of the
system matrix by the right-hand side (current `quadifyCurve`) produces the
same off-curve points as a fresh elimination of the same system per call
(the `lusolve`-based variant). -/
theorem quadifyCurve_lusolve_equiv (c : Curve) (n : ℤ) (hn : 2 ≤ n) :
    quadifyCurve c n = quadifyCurveLU c n := by
  have hn0 : ¬ n ≤ 0 := by omega
  have hn1 : ¬ n = 1 := by omega
  have hdet := getMatrix_det_ne_zero n.toNat (by omega)
  have hunit : IsUnit (getMatrix n.toNat).det := isUnit_iff_ne_zero.mpr hdet
  have hsol : (getMatrix n.toNat).mulVec
      ((getMatrix n.toNat)⁻¹.mulVec (getResults c n.toNat)) =
      getResults c n.toNat := by
    rw [Matrix.mulVec_mulVec, Matrix.mul_nonsing_inv _ hunit, Matrix.one_mulVec]
  have huniq : ∃! x, (getMatrix n.toNat).mulVec x = getResults c n.toNat := by
    refine ⟨(getMatrix n.toNat)⁻¹.mulVec (getResults c n.toNat), hsol, ?_⟩
    intro y hy
    have h3 := congrArg (fun z => (getMatrix n.toNat)⁻¹.mulVec z) hy
    simp only at h3
    rw [Matrix.mulVec_mulVec, Matrix.nonsing_inv_mul _ hunit,
      Matrix.one_mulVec] at h3
    exact h3
  have hch : huniq.choose =
      (getMatrix n.toNat)⁻¹.mulVec (getResults c n.toNat) :=
    (huniq.choose_spec.2 _ hsol).symm
  unfold quadifyCurve quadifyCurveLU quadifySpline lusolve
  rw [if_neg hn0, if_neg hn1, if_neg hn0, if_neg hn1, if_neg hdet,
    dif_pos huniq, hch]

/-- Witness for C5's theorem at the parabola with `n = 2`. -/
theorem quadifyCurve_lusolve_equiv_witness :
    quadifyCurve parabola 2 = quadifyCurveLU parabola 2 :=
  quadifyCurve_lusolve_equiv parabola 2 (le_refl 2)

/-- The call `minDistanceToQuad(zx, zy, c[0], ..., c[5])` made by
`estimateError` of `src/functional.ts` on one 6-tuple of the `curves` list. -/
noncomputable def segDist (z : Point2d) (q : ℝ × ℝ × ℝ × ℝ × ℝ × ℝ) : ℝ :=
  minDistanceToQuad z.x z.y q.1 q.2.1 q.2.2.1 q.2.2.2.1 q.2.2.2.2.1 q.2.2.2.2.2

/-- The `curves` list built by `estimateError` of `src/functional.ts`: for
each off-point `z = offPoints[j]`, the segment
`(pointBefore, z, pointAfter)` flattened to a 6-tuple, where `pointBefore`
is the midpoint with the previous off-point (the curve start for `j = 0`) and
`pointAfter` the midpoint with the next one (the curve end for the last). -/
noncomputable def quadSegs (c : Curve) (offPoints : List Point2d) :
    List (ℝ × ℝ × ℝ × ℝ × ℝ × ℝ) :=
  (List.range offPoints.length).map fun j =>
    let z := offPoints.getD j ⟨0, 0⟩
    let pointBefore : Point2d :=
      if 0 < j then
        ⟨mix z.x (offPoints.getD (j - 1) ⟨0, 0⟩).x (1 / 2),
          mix z.y (offPoints.getD (j - 1) ⟨0, 0⟩).y (1 / 2)⟩
      else c.eval 0
    let pointAfter : Point2d :=
      if j < offPoints.length - 1 then
        ⟨mix z.x (offPoints.getD (j + 1) ⟨0, 0⟩).x (1 / 2),
          mix z.y (offPoints.getD (j + 1) ⟨0, 0⟩).y (1 / 2)⟩
      else c.eval 1
    (pointBefore.x, pointBefore.y, z.x, z.y, pointAfter.x, pointAfter.y)

/-- The inner loop of `estimateError`: the running minimum over the segment
list, starting at `1e9`, of the squared distance from the sample `z`. -/
noncomputable def sampleMin (curves : List (ℝ × ℝ × ℝ × ℝ × ℝ × ℝ))
    (z : Point2d) : ℝ :=
  curves.foldl (fun minDistSofar q =>
    if segDist z q < minDistSofar then segDist z q else minDistSofar)
    1000000000

/-- `estimateError` of `src/functional.ts`: the outer loop `j = 1 .. N-1`
accumulates the per-sample minima at parameters `j / N` and the total is
divided by `N`. -/
noncomputable def estimateError (c : Curve) (offPoints : List Point2d)
    (N : ℕ) : ℝ :=
  (∑ j in Finset.Ico 1 N,
    sampleMin (quadSegs c offPoints) (c.eval ((j : ℝ) / (N : ℝ)))) / (N : ℝ)

/-- Shared cap bound: `minDistanceToQuad` never exceeds its initial `1e9`. -/
theorem minDistanceToQuad_le_cap (zx zy ax ay bX bY cx cy : ℝ) :
    minDistanceToQuad zx zy ax ay bX bY cx cy ≤ 1000000000 := by
  rw [minDistanceToQuad_eq_foldl]
  exact foldMin_le_init _ _ _

/-- C7 (amended): with a nonempty off-point list, each per-sample value is the
exact minimum over the reconstructed segments (the `1e9` start is absorbed
because `minDistanceToQuad` is capped by `1e9`), there are as many
reconstructed segments as off-points, and `estimateError` equals the sum of
the `N - 1` per-sample minima at the interior parameters `(j+1)/N`
(`j = 0 .. N-2`) divided by `N` — not the mean over the samples. -/
theorem estimateError_spec (c : Curve) (offPoints : List Point2d) (N : ℕ)
    (hne : offPoints ≠ []) :
    (∀ z : Point2d,
      (∃ q ∈ quadSegs c offPoints,
        sampleMin (quadSegs c offPoints) z = segDist z q) ∧
      (∀ q ∈ quadSegs c offPoints,
        sampleMin (quadSegs c offPoints) z ≤ segDist z q)) ∧
    (quadSegs c offPoints).length = offPoints.length ∧
    estimateError c offPoints N =
      (∑ j in Finset.range (N - 1),
        sampleMin (quadSegs c offPoints) (c.eval (((j : ℝ) + 1) / (N : ℝ)))) /
        (N : ℝ) := by
  have hlen : (quadSegs c offPoints).length = offPoints.length := by
    unfold quadSegs
    rw [List.length_map, List.length_range]
  refine ⟨?_, hlen, ?_⟩
  · intro z
    have hfold : sampleMin (quadSegs c offPoints) z =
        (quadSegs c offPoints).foldl
          (fun m q => if segDist z q < m then segDist z q else m) 1000000000 := rfl
    have hcap : ∀ q ∈ quadSegs c offPoints, segDist z q ≤ 1000000000 := by
      intro q _
      exact minDistanceToQuad_le_cap _ _ _ _ _ _ _ _
    have hlb : ∀ q ∈ quadSegs c offPoints,
        sampleMin (quadSegs c offPoints) z ≤ segDist z q := by
      intro q hq
      rw [hfold]
      exact foldMin_le_mem _ _ _ hq
    refine ⟨?_, hlb⟩
    have hnil : quadSegs c offPoints ≠ [] := by
      intro h
      apply hne
      have := hlen
      rw [h] at this
      exact List.length_eq_zero.mp this.symm
    obtain ⟨q0, hq0⟩ := List.exists_mem_of_ne_nil _ hnil
    rcases foldMin_attained (segDist z) (quadSegs c offPoints) 1000000000 with
      h | ⟨q, hq, h⟩
    · refine ⟨q0, hq0, ?_⟩
      have h1 := hlb q0 hq0
      have h2 := hcap q0 hq0
      rw [hfold, h]
      rw [hfold, h] at h1
      linarith
    · exact ⟨q, hq, by rw [hfold, h]⟩
  · unfold estimateError
    rw [Finset.sum_Ico_eq_sum_range]
    refine congrArg (fun s => s / (N : ℝ)) ?_
    refine Finset.sum_congr rfl (fun j _ => ?_)
    have hc : ((1 + j : ℕ) : ℝ) = (j : ℝ) + 1 := by
      push_cast
      ring
    rw [hc]

/-- Witness for C7's amended theorem: one off-point yields one segment. -/
theorem estimateError_spec_witness :
    (quadSegs parabola [⟨1 / 2, 1 / 2⟩]).length = 1 := by
  have h := (estimateError_spec parabola [⟨1 / 2, 1 / 2⟩] 2 (by simp)).2.1
  simpa using h

/-- The single reconstructed segment for the parabola with off-point list
`[(1/2, 1/2)]`: both endpoints are curve endpoints. -/
theorem quadSegs_parabola_single :
    quadSegs parabola [⟨1 / 2, 1 / 2⟩] =
      [(0, 0, 1 / 2, 1 / 2, 1, 1)] := by
  unfold quadSegs parabola
  norm_num [show List.range 1 = [0] from rfl, List.getD_cons_zero]

/-- The candidate parameters for the sample `(1/2, 1/4)` against the straight
quadratic `(0,0) - (1/2,1/2) - (1,1)`: the cubic degenerates to a linear
equation with root `3/8`. -/
theorem quadDistCandidates_parabola_sample :
    quadDistCandidates (1 / 2) (1 / 4) 0 0 (1 / 2) (1 / 2) 1 1 =
      [0, 1, 3 / 8] := by
  unfold quadDistCandidates cubicSolveT cubicSolve quadSolve
  norm_num [List.filter]

/-- The squared distance from the sample to this segment at parameter `t`. -/
theorem quadDistAt_parabola_sample (t : ℝ) :
    quadDistAt (1 / 2) (1 / 4) 0 0 (1 / 2) (1 / 2) 1 1 t =
      (t - 1 / 2) * (t - 1 / 2) + (t - 1 / 4) * (t - 1 / 4) := by
  unfold quadDistAt bez2 mix
  ring

/-- The true minimum squared distance of the sample to the segment. -/
theorem minDistanceToQuad_parabola_sample :
    minDistanceToQuad (1 / 2) (1 / 4) 0 0 (1 / 2) (1 / 2) 1 1 = 1 / 32 := by
  rw [minDistanceToQuad_eq_foldl, quadDistCandidates_parabola_sample]
  simp only [List.foldl_cons, List.foldl_nil, quadDistAt_parabola_sample]
  norm_num

/-- C7 counterexample: for the parabola with one off-point `(1/2, 1/2)` and
`N = 2` samples requested, there is a single sample (at `t = 1/2`) whose
minimum squared distance is `1/32`, so the mean over all samples is `1/32`;
but `estimateError` divides by `N = 2` and returns `1/64`. -/
theorem estimateError_not_mean :
    estimateError parabola [⟨1 / 2, 1 / 2⟩] 2 = 1 / 64 ∧
    sampleMin (quadSegs parabola [⟨1 / 2, 1 / 2⟩])
      (parabola.eval ((1 : ℝ) / 2)) = 1 / 32 ∧
    ((1 : ℝ) / 64) ≠ 1 / 32 := by
  have heval : parabola.eval ((1 : ℝ) / 2) = ⟨1 / 2, 1 / 4⟩ := by
    unfold parabola
    norm_num
  have hsm : sampleMin (quadSegs parabola [⟨1 / 2, 1 / 2⟩]) ⟨1 / 2, 1 / 4⟩ =
      1 / 32 := by
    rw [quadSegs_parabola_single]
    unfold sampleMin segDist
    simp only [List.foldl_cons, List.foldl_nil]
    norm_num [minDistanceToQuad_parabola_sample]
  refine ⟨?_, ?_, by norm_num⟩
  · unfold estimateError
    rw [show Finset.Ico 1 2 = {1} by rfl, Finset.sum_singleton]
    rw [show (((1 : ℕ) : ℝ) / ((2 : ℕ) : ℝ)) = (1 : ℝ) / 2 by norm_num]
    rw [heval, hsm]
    norm_num
  · rw [heval, hsm]

/-- The loop body of `autoQuadifyCurve` of `src/functional.ts`, by remaining
iteration count: `autoQuadAux c e samples k s results` runs the candidate
segment counts `s, s+1, ..., s+k-1`, starting from the best-effort value
`results`.  A `quadifyCurve` failure — a `null` return or a thrown
exception, both `none` here — and an empty fit (`!offPoints.length`) skip to
the next count; a fit whose estimated error is below the threshold returns
immediately; otherwise the fit is remembered as best-effort. -/
noncomputable def autoQuadAux (c : Curve) (allowError : ℝ) (samples : ℕ) :
    ℕ → ℕ → Option (List Point2d) → Option (List Point2d)
  | 0, _, results => results
  | k + 1, s, results =>
    match quadifyCurve c (s : ℤ) with
    | none => autoQuadAux c allowError samples k (s + 1) results
    | some offPoints =>
      if offPoints.length = 0 then autoQuadAux c allowError samples k (s + 1) results
      else if estimateError c offPoints (samples * s) < allowError then
        some offPoints
      else autoQuadAux c allowError samples k (s + 1) (some offPoints)

/-- `autoQuadifyCurve` of `src/functional.ts`: the loop
`for (s = 1; s <= maxSegments; s++)` with `results` initially `null`. -/
noncomputable def autoQuadifyCurve (c : Curve) (allowError : ℝ)
    (maxSegments : ℕ) (samples : ℕ) : Option (List Point2d) :=
  autoQuadAux c allowError samples maxSegments 1 none

/-- A segment count `s` "produces points": `quadifyCurve` neither fails nor
returns an empty fit there. -/
def producesFit (c : Curve) (s : ℕ) : Prop :=
  ∃ ps, quadifyCurve c (s : ℤ) = some ps ∧ ps ≠ []

/-- A segment count `s` satisfies the caller's threshold: it produces points
whose estimated error (at `samples * s` sample density) is below `e`. -/
def goodFit (c : Curve) (e : ℝ) (samples : ℕ) (s : ℕ) : Prop :=
  ∃ ps, quadifyCurve c (s : ℤ) = some ps ∧ ps ≠ [] ∧
    estimateError c ps (samples * s) < e

/-- Unfolding of one loop iteration when the attempt fails. -/
theorem autoQuadAux_succ_none (c : Curve) (e : ℝ) (samples k s : ℕ)
    (best : Option (List Point2d))
    (hq : quadifyCurve c (s : ℤ) = none) :
    autoQuadAux c e samples (k + 1) s best =
      autoQuadAux c e samples k (s + 1) best := by
  conv_lhs => simp only [autoQuadAux]
  rw [hq]

/-- Unfolding of one loop iteration when the attempt yields `ps`. -/
theorem autoQuadAux_succ_some (c : Curve) (e : ℝ) (samples k s : ℕ)
    (best : Option (List Point2d)) (ps : List Point2d)
    (hq : quadifyCurve c (s : ℤ) = some ps) :
    autoQuadAux c e samples (k + 1) s best =
      if ps.length = 0 then autoQuadAux c e samples k (s + 1) best
      else if estimateError c ps (samples * s) < e then some ps
      else autoQuadAux c e samples k (s + 1) (some ps) := by
  conv_lhs => simp only [autoQuadAux]
  rw [hq]

/-- If the window `[s, s+k)` contains a satisfying count `s₀` and no earlier
count in the window satisfies the threshold, the loop returns the fit of
`s₀`, regardless of the incoming best-effort value. -/
theorem autoQuadAux_finds_first (c : Curve) (e : ℝ) (samples : ℕ) :
    ∀ (k s : ℕ) (best : Option (List Point2d)) (s₀ : ℕ) (ps₀ : List Point2d),
      s ≤ s₀ → s₀ < s + k →
      quadifyCurve c (s₀ : ℤ) = some ps₀ → ps₀ ≠ [] →
      estimateError c ps₀ (samples * s₀) < e →
      (∀ t, s ≤ t → t < s₀ → ¬ goodFit c e samples t) →
      autoQuadAux c e samples k s best = some ps₀ := by
  intro k
  induction k with
  | zero =>
    intro s best s₀ ps₀ h1 h2 _ _ _ _
    omega
  | succ k ih =>
    intro s best s₀ ps₀ hs1 hs2 hq hne herr hmin
    rcases eq_or_lt_of_le hs1 with heq | hlt
    · subst heq
      rw [autoQuadAux_succ_some c e samples k s best ps₀ hq,
        if_neg (fun h => hne (List.length_eq_zero.mp h)), if_pos herr]
    · cases hcase : quadifyCurve c (s : ℤ) with
      | none =>
        rw [autoQuadAux_succ_none c e samples k s best hcase]
        exact ih (s + 1) best s₀ ps₀ (by omega) (by omega) hq hne herr
          (fun t h1 h2 => hmin t (by omega) h2)
      | some ps =>
        rw [autoQuadAux_succ_some c e samples k s best ps hcase]
        by_cases hlen : ps.length = 0
        · rw [if_pos hlen]
          exact ih (s + 1) best s₀ ps₀ (by omega) (by omega) hq hne herr
            (fun t h1 h2 => hmin t (by omega) h2)
        · rw [if_neg hlen]
          by_cases herr2 : estimateError c ps (samples * s) < e
          · exfalso
            exact hmin s (le_refl s) hlt
              ⟨ps, hcase, fun h => hlen (by rw [h]; rfl), herr2⟩
          · rw [if_neg herr2]
            exact ih (s + 1) (some ps) s₀ ps₀ (by omega) (by omega) hq hne herr
              (fun t h1 h2 => hmin t (by omega) h2)

/-- If no count in the window `[s, s+k)` satisfies the threshold, the loop
returns the incoming best-effort value when nothing in the window produces
points, and the fit of the largest producing count otherwise. -/
theorem autoQuadAux_no_good (c : Curve) (e : ℝ) (samples : ℕ) :
    ∀ (k s : ℕ) (best : Option (List Point2d)),
      (∀ t, s ≤ t → t < s + k → ¬ goodFit c e samples t) →
      ((∀ t, s ≤ t → t < s + k → ¬ producesFit c t) →
        autoQuadAux c e samples k s best = best) ∧
      (∀ (s₁ : ℕ) (ps₁ : List Point2d), s ≤ s₁ → s₁ < s + k →
        quadifyCurve c (s₁ : ℤ) = some ps₁ → ps₁ ≠ [] →
        (∀ t, s₁ < t → t < s + k → ¬ producesFit c t) →
        autoQuadAux c e samples k s best = some ps₁) := by
  intro k
  induction k with
  | zero =>
    intro s best _
    constructor
    · intro _
      rfl
    · intro s₁ ps₁ h1 h2 _ _ _
      omega
  | succ k ih =>
    intro s best hnogood
    have hnogood' : ∀ t, s + 1 ≤ t → t < (s + 1) + k → ¬ goodFit c e samples t :=
      fun t h1 h2 => hnogood t (by omega) (by omega)
    constructor
    · intro hnoprod
      cases hcase : quadifyCurve c (s : ℤ) with
      | none =>
        rw [autoQuadAux_succ_none c e samples k s best hcase]
        exact (ih (s + 1) best hnogood').1
          (fun t h1 h2 => hnoprod t (by omega) (by omega))
      | some ps =>
        by_cases hlen : ps.length = 0
        · rw [autoQuadAux_succ_some c e samples k s best ps hcase, if_pos hlen]
          exact (ih (s + 1) best hnogood').1
            (fun t h1 h2 => hnoprod t (by omega) (by omega))
        · exfalso
          exact hnoprod s (le_refl s) (by omega)
            ⟨ps, hcase, fun h => hlen (by rw [h]; rfl)⟩
    · intro s₁ ps₁ hs1 hs2 hq hne hmax
      cases hcase : quadifyCurve c (s : ℤ) with
      | none =>
        have hss : s ≠ s₁ := by
          intro h
          rw [← h, hcase] at hq
          cases hq
        rw [autoQuadAux_succ_none c e samples k s best hcase]
        exact (ih (s + 1) best hnogood').2 s₁ ps₁ (by omega) (by omega) hq hne
          (fun t h1 h2 => hmax t h1 (by omega))
      | some ps =>
        by_cases hlen : ps.length = 0
        · have hss : s ≠ s₁ := by
            intro h
            rw [← h, hcase] at hq
            obtain rfl := Option.some.inj hq
            exact hne (List.length_eq_zero.mp hlen)
          rw [autoQuadAux_succ_some c e samples k s best ps hcase, if_pos hlen]
          exact (ih (s + 1) best hnogood').2 s₁ ps₁ (by omega) (by omega) hq hne
            (fun t h1 h2 => hmax t h1 (by omega))
        · have herrge : ¬ estimateError c ps (samples * s) < e := fun hlt2 =>
            hnogood s (le_refl s) (by omega)
              ⟨ps, hcase, fun h => hlen (by rw [h]; rfl), hlt2⟩
          rw [autoQuadAux_succ_some c e samples k s best ps hcase,
            if_neg hlen, if_neg herrge]
          rcases eq_or_lt_of_le hs1 with heq | hlt
          · subst heq
            rw [hcase] at hq
            obtain rfl := Option.some.inj hq
            exact (ih (s + 1) (some ps) hnogood').1
              (fun t h1 h2 => hmax t (by omega) (by omega))
          · exact (ih (s + 1) (some ps) hnogood').2 s₁ ps₁ (by omega) (by omega)
              hq hne (fun t h1 h2 => hmax t h1 (by omega))

/-- C1: `autoQuadifyCurve` iterates `s = 1 .. maxSegments`; it returns the
fit of the smallest `s` that produces points with estimated error strictly
below the threshold; if no such `s` exists it returns the fit of the largest
`s` that produced a non-empty fit; and it returns `none` when no `s`
produced any points. -/
theorem autoQuadifyCurve_spec (c : Curve) (e : ℝ) (maxSegments samples : ℕ)
    (_hM : 1 ≤ maxSegments) :
    (∀ (s₀ : ℕ) (ps₀ : List Point2d), 1 ≤ s₀ → s₀ ≤ maxSegments →
      quadifyCurve c (s₀ : ℤ) = some ps₀ → ps₀ ≠ [] →
      estimateError c ps₀ (samples * s₀) < e →
      (∀ t, 1 ≤ t → t < s₀ → ¬ goodFit c e samples t) →
      autoQuadifyCurve c e maxSegments samples = some ps₀) ∧
    ((∀ t, 1 ≤ t → t ≤ maxSegments → ¬ goodFit c e samples t) →
      (∀ (s₁ : ℕ) (ps₁ : List Point2d), 1 ≤ s₁ → s₁ ≤ maxSegments →
        quadifyCurve c (s₁ : ℤ) = some ps₁ → ps₁ ≠ [] →
        (∀ t, s₁ < t → t ≤ maxSegments → ¬ producesFit c t) →
        autoQuadifyCurve c e maxSegments samples = some ps₁) ∧
      ((∀ t, 1 ≤ t → t ≤ maxSegments → ¬ producesFit c t) →
        autoQuadifyCurve c e maxSegments samples = none)) := by
  constructor
  · intro s₀ ps₀ h1 h2 hq hne herr hmin
    unfold autoQuadifyCurve
    exact autoQuadAux_finds_first c e samples maxSegments 1 none s₀ ps₀ h1
      (by omega) hq hne herr (fun t ht1 ht2 => hmin t ht1 ht2)
  · intro hnogood
    have hnogood' : ∀ t, 1 ≤ t → t < 1 + maxSegments → ¬ goodFit c e samples t :=
      fun t ht1 ht2 => hnogood t ht1 (by omega)
    constructor
    · intro s₁ ps₁ h1 h2 hq hne hmax
      unfold autoQuadifyCurve
      exact (autoQuadAux_no_good c e samples maxSegments 1 none hnogood').2
        s₁ ps₁ h1 (by omega) hq hne (fun t ht1 ht2 => hmax t ht1 (by omega))
    · intro hnoprod
      unfold autoQuadifyCurve
      exact (autoQuadAux_no_good c e samples maxSegments 1 none hnogood').1
        (fun t ht1 ht2 => hnoprod t ht1 (by omega))

/-- Concrete tangent intersection for the parabola: determinant `-2`, ray
parameters `u = 1/2 > 0` and `v = -1/2 < 0`, intersection `(1/2, 0)`. -/
theorem findIntersection_parabola :
    findIntersection (parabola.eval 0) (parabola.derivative 0)
      (parabola.derivative 1) (parabola.eval 1) = some ⟨1 / 2, 0⟩ := by
  have hdet : rayDet (parabola.derivative 0) (parabola.derivative 1) = -2 := by
    unfold rayDet parabola
    norm_num
  have hnU : rayNumU (parabola.eval 0) (parabola.derivative 1)
      (parabola.eval 1) = -1 := by
    unfold rayNumU parabola
    norm_num
  have hnV : rayNumV (parabola.eval 0) (parabola.derivative 0)
      (parabola.eval 1) = 1 := by
    unfold rayNumV parabola
    norm_num
  unfold findIntersection
  rw [if_neg (show ¬ |rayDet (parabola.derivative 0) (parabola.derivative 1)| <
        1 / 1000000 by
      rw [hdet, abs_of_neg (show (-2 : ℝ) < 0 by norm_num)]
      norm_num)]
  rw [if_neg (show ¬ (rayNumU (parabola.eval 0) (parabola.derivative 1)
        (parabola.eval 1) /
        rayDet (parabola.derivative 0) (parabola.derivative 1) ≤ 0 ∨
      rayNumV (parabola.eval 0) (parabola.derivative 0) (parabola.eval 1) /
        rayDet (parabola.derivative 0) (parabola.derivative 1) ≥ 0) by
      rw [hdet, hnU, hnV]
      norm_num)]
  rw [hdet, hnU]
  unfold parabola
  norm_num

/-- Witness for C1's theorem: for the parabola with threshold `1`, cap `1`
and sample density `1`, the count `s = 1` produces the fit `[(1/2, 0)]` with
estimated error `0 < 1`, and the search returns it. -/
theorem autoQuadifyCurve_spec_witness :
    autoQuadifyCurve parabola 1 1 1 = some [⟨1 / 2, 0⟩] := by
  have hq : quadifyCurve parabola ((1 : ℕ) : ℤ) = some [⟨1 / 2, 0⟩] := by
    rw [Nat.cast_one]
    unfold quadifyCurve
    rw [if_neg (by norm_num : ¬ (1 : ℤ) ≤ 0), if_pos rfl,
      findIntersection_parabola]
  have herr : estimateError parabola [⟨1 / 2, 0⟩] (1 * 1) < 1 := by
    unfold estimateError
    norm_num
  exact (autoQuadifyCurve_spec parabola 1 1 1 (le_refl 1)).1 1 [⟨1 / 2, 0⟩]
    (le_refl 1) (le_refl 1) hq (by simp) herr
    (fun t h1 h2 => absurd (lt_of_le_of_lt h1 h2) (lt_irrefl 1))
